import Mathlib

/-!
Shallow embedding of the form validation logic of
src/packages/ui/src/components/form/CForm.tsx.

A validator receives the current value of a field and returns either the
JavaScript literal false (modelled as none) or an error message string
(modelled as some msg); it may also throw or reject, modelled by the
Except monad with an exception type ε.  Awaiting the possibly asynchronous
rules one at a time makes the control flow sequential, so the async
functions are modelled as sequential Except computations.  JavaScript
objects keyed by field names are modelled as association lists kept in
insertion order, which matches object spread, computed key assignment and
for..in iteration order for non-numeric string keys.
-/

namespace CForm

/-- Result of one validator call in the source: the literal false or a
message.  none models false, some s models the string s. -/
abbrev ErrVal := Option String

/-- JavaScript truthiness of a false-or-string value: false and the empty
string are falsy, every non-empty string is truthy.  This is the test the
source performs with if (error). -/
def truthy : ErrVal → Bool
  | none => false
  | some s => s != ""

/-- Validator from CFormContext: a function from the current field value to
false or an error message, possibly throwing an exception of type ε. -/
abbrev Validator (α ε : Type) := α → Except ε ErrVal

/-- Validators from CFormContext: the registry mapping each field name to
its ordered rule list, built by addValidator. -/
abbrev Validators (α ε : Type) := List (String × List (Validator α ε))

/-- Errors from CFormContext: the error state mapping a field name to
false (none) or the first failing message (some msg).  A field absent from
the list has no entry at all. -/
abbrev Errors := List (String × ErrVal)

/-- JavaScript object key assignment on a string-keyed object: when the key
is already present its value is updated in place keeping its position,
otherwise the pair is appended.  This models both a computed-key object
spread and a plain indexed assignment on an object. -/
def setKey {β : Type} (m : List (String × β)) (k : String) (v : β) :
    List (String × β) :=
  if m.any (fun p => p.1 == k) then
    m.map (fun p => if p.1 == k then (k, v) else p)
  else
    m ++ [(k, v)]

/-- addValidator: validators[field] = newValidator, overwriting any rule
list already registered for that field. -/
def addValidator {α ε : Type} (vs : Validators α ε) (field : String)
    (newValidator : List (Validator α ε)) : Validators α ε :=
  setKey vs field newValidator

/-- clearAll: setErrors with a fresh empty object, discarding every entry
of the previous error state. -/
def clearAll (_errors : Errors) : Errors := []

/-- clearField: setErrors with a spread of the current errors plus the
given field set to false; every other entry is copied unchanged. -/
def clearField (errors : Errors) (field : String) : Errors :=
  setKey errors field none

/-- The rule loop shared by validateField: await each rule on the field
value in order; the first truthy result becomes hasError and breaks the
loop; if no rule yields a truthy result the final hasError is false
(none).  A rule that throws propagates as Except.error. -/
def runRules {α ε : Type} :
    List (Validator α ε) → α → Except ε ErrVal
  | [], _ => Except.ok none
  | rule :: rest, v =>
    match rule v with
    | Except.error e => Except.error e
    | Except.ok error =>
      if truthy error then Except.ok error else runRules rest v

/-- validateField: look the field up in the registry (an undefined entry
skips the loop and keeps hasError = false, and an empty rule array runs
the loop zero times), run the rules to the first truthy failure, then
setErrors with a spread of the current errors plus this field mapped to
hasError.  An uncaught exception aborts before setErrors runs. -/
def validateField {α ε : Type} (vs : Validators α ε) (value : String → α)
    (errors : Errors) (field : String) : Except ε Errors :=
  match List.lookup field vs with
  | none => Except.ok (setKey errors field none)
  | some fieldRules =>
    match runRules fieldRules (value field) with
    | Except.error e => Except.error e
    | Except.ok hasError => Except.ok (setKey errors field hasError)

/-- The inner loop of validateAll for one field: await each rule in order;
at the first truthy result assign errors[field] = error and break; when
every rule is falsy the accumulator is left untouched, so a passing field
gets no entry. -/
def validateAllField {α ε : Type} :
    List (Validator α ε) → α → Errors → String → Except ε Errors
  | [], _, acc, _ => Except.ok acc
  | rule :: rest, v, acc, field =>
    match rule v with
    | Except.error e => Except.error e
    | Except.ok error =>
      if truthy error then Except.ok (setKey acc field error)
      else validateAllField rest v acc field

/-- The outer for..in loop of validateAll over the registry, threading the
freshly created errors object through each field. -/
def validateAllGo {α ε : Type} :
    Validators α ε → (String → α) → Errors → Except ε Errors
  | [], _, acc => Except.ok acc
  | (field, rules) :: rest, value, acc =>
    match validateAllField rules (value field) acc field with
    | Except.error e => Except.error e
    | Except.ok acc2 => validateAllGo rest value acc2

/-- validateAll: start from a fresh empty errors object, run every
registered field in registry order, and produce the full replacement
mapping handed to setErrors.  An exception thrown by any rule propagates
and no mapping is produced. -/
def validateAll {α ε : Type} (vs : Validators α ε) (value : String → α) :
    Except ε Errors :=
  validateAllGo vs value []

/-- Effect of one validateAll call on the component error state: when the
computation finishes, setErrors replaces the state with the new mapping;
when a rule throws, the async function rejects before reaching setErrors
and the state is left exactly as it was. -/
def validateAllRun {α ε : Type} (vs : Validators α ε) (value : String → α)
    (st : Errors) : Errors :=
  match validateAll vs value with
  | Except.ok newErrors => newErrors
  | Except.error _ => st

/-!
Helper lemmas about lookups in the association lists that model
string-keyed JavaScript objects.
-/

/-- An object in which no stored key equals k has no entry for k. -/
theorem lookup_eq_none_of_any_eq_false {β : Type} {m : List (String × β)}
    {k : String} (h : m.any (fun p => p.1 == k) = false) :
    List.lookup k m = none := by
  induction m with
  | nil => rfl
  | cons p rest ih =>
    simp only [List.any_cons, Bool.or_eq_false_iff] at h
    have hk : (k == p.1) = false := by
      cases hpk : p.1 == k with
      | false =>
        simp only [beq_eq_false_iff_ne] at hpk ⊢
        exact fun hkp => hpk hkp.symm
      | true => simp [hpk] at h
    simp [List.lookup, hk, ih h.2]

/-- In-place update of key k makes lookup of k return the new value,
provided some stored key equals k. -/
theorem lookup_map_update_self {β : Type} (m : List (String × β))
    (k : String) (v : β) (h : m.any (fun p => p.1 == k) = true) :
    List.lookup k (m.map (fun p => if p.1 == k then (k, v) else p)) =
      some v := by
  induction m with
  | nil => simp at h
  | cons p rest ih =>
    rw [List.map_cons]
    cases hpk : p.1 == k with
    | true => simp [hpk, List.lookup]
    | false =>
      have hk : (k == p.1) = false := by
        simp only [beq_eq_false_iff_ne] at hpk ⊢
        exact fun hkp => hpk hkp.symm
      simp only [List.any_cons, hpk, Bool.false_or] at h
      simp only [hpk, List.lookup, hk]
      simpa using ih h

/-- In-place update of key k leaves lookup of any other key unchanged. -/
theorem lookup_map_update_ne {β : Type} (m : List (String × β))
    {k k2 : String} (v : β) (h : k2 ≠ k) :
    List.lookup k2 (m.map (fun p => if p.1 == k then (k, v) else p)) =
      List.lookup k2 m := by
  induction m with
  | nil => rfl
  | cons p rest ih =>
    rw [List.map_cons]
    cases hpk : p.1 == k with
    | true =>
      have hk : k = p.1 := (beq_iff_eq.mp hpk).symm
      have h2 : (k2 == k) = false := beq_eq_false_iff_ne.mpr h
      have h2p : (k2 == p.1) = false := hk ▸ h2
      simp only [hpk, List.lookup, h2, h2p]
      simpa using ih
    | false =>
      cases hk2p : k2 == p.1 with
      | true => simp [hpk, List.lookup, hk2p]
      | false =>
        simp only [hpk, List.lookup, hk2p]
        simpa using ih

/-- Appending a fresh entry for an absent key makes lookup of that key
return the new value. -/
theorem lookup_append_self {β : Type} (m : List (String × β)) (k : String)
    (v : β) (h : List.lookup k m = none) :
    List.lookup k (m ++ [(k, v)]) = some v := by
  induction m with
  | nil => simp [List.lookup]
  | cons p rest ih =>
    cases hkp : k == p.1 with
    | true => simp [List.lookup, hkp] at h
    | false =>
      simp only [List.lookup, hkp] at h
      rw [List.cons_append]
      simp [List.lookup, hkp, ih h]

/-- Appending an entry for key k leaves lookup of any other key
unchanged. -/
theorem lookup_append_ne {β : Type} (m : List (String × β))
    {k k2 : String} (v : β) (h : k2 ≠ k) :
    List.lookup k2 (m ++ [(k, v)]) = List.lookup k2 m := by
  induction m with
  | nil => simp [List.lookup, beq_eq_false_iff_ne.mpr h]
  | cons p rest ih =>
    rw [List.cons_append]
    cases hk2p : k2 == p.1 with
    | true => simp [List.lookup, hk2p]
    | false => simp [List.lookup, hk2p, ih]

/-- Looking up the assigned key after a key assignment yields the new
value. -/
theorem lookup_setKey_self {β : Type} (m : List (String × β)) (k : String)
    (v : β) : List.lookup k (setKey m k v) = some v := by
  unfold setKey
  by_cases hany : m.any (fun p => p.1 == k) = true
  · rw [if_pos hany]
    exact lookup_map_update_self m k v hany
  · rw [if_neg hany]
    exact lookup_append_self m k v
      (lookup_eq_none_of_any_eq_false (Bool.eq_false_iff.mpr hany))

/-- A key assignment leaves the entry of every other key unchanged. -/
theorem lookup_setKey_ne {β : Type} (m : List (String × β)) {k k2 : String}
    (v : β) (h : k2 ≠ k) :
    List.lookup k2 (setKey m k v) = List.lookup k2 m := by
  unfold setKey
  by_cases hany : m.any (fun p => p.1 == k) = true
  · rw [if_pos hany]
    exact lookup_map_update_ne m v h
  · rw [if_neg hany]
    exact lookup_append_ne m v h

/-- A key found by lookup is a member of the association list together
with its value. -/
theorem mem_of_lookup_eq_some {β : Type} {m : List (String × β)}
    {k : String} {b : β} (h : List.lookup k m = some b) : (k, b) ∈ m := by
  induction m with
  | nil => simp [List.lookup] at h
  | cons p rest ih =>
    cases p with
    | mk a c =>
      cases hkp : k == a with
      | true =>
        have hk : k = a := beq_iff_eq.mp hkp
        simp only [List.lookup, hkp] at h
        cases h
        subst hk
        exact List.mem_cons_self _ _
      | false =>
        simp only [List.lookup, hkp] at h
        exact List.mem_cons_of_mem _ (ih h)

/-!
Lemmas characterising the validateAll loops.
-/

/-- The inner validateAll loop computes the same first truthy failure as
the validateField rule loop; it records the failure in the accumulator
and leaves the accumulator untouched when every rule passes. -/
theorem validateAllField_eq {α ε : Type} (rules : List (Validator α ε))
    (v : α) (acc : Errors) (f : String) :
    validateAllField rules v acc f =
      (runRules rules v).map
        (fun r => if truthy r then setKey acc f r else acc) := by
  induction rules with
  | nil => rfl
  | cons rule rest ih =>
    simp only [validateAllField, runRules]
    cases hr : rule v with
    | error e => rfl
    | ok r =>
      cases htr : truthy r with
      | true => simp [htr, Except.map]
      | false => simp [htr, ih]

/-- When the inner loop of validateAll finishes a field without throwing,
the entry of every other field in the accumulator is unchanged. -/
theorem lookup_validateAllField_ne {α ε : Type}
    {rules : List (Validator α ε)} {v : α} {acc acc2 : Errors}
    {f g : String} (hne : g ≠ f)
    (hok : validateAllField rules v acc f = Except.ok acc2) :
    List.lookup g acc2 = List.lookup g acc := by
  rw [validateAllField_eq] at hok
  cases hr : runRules rules v with
  | error e =>
    rw [hr] at hok
    cases hok
  | ok r =>
    rw [hr] at hok
    simp only [Except.map, Except.ok.injEq] at hok
    cases htr : truthy r with
    | true =>
      simp only [htr, if_true] at hok
      rw [← hok]
      exact lookup_setKey_ne acc r hne
    | false =>
      simp only [htr, Bool.false_eq_true, if_false] at hok
      rw [← hok]

/-- When the inner loop of validateAll finishes a field without throwing,
its rules ran to their first truthy failure: the failure is recorded as
the field entry, and a fully passing field leaves its entry untouched. -/
theorem lookup_validateAllField_self {α ε : Type}
    {rules : List (Validator α ε)} {v : α} {acc acc2 : Errors} {f : String}
    (hok : validateAllField rules v acc f = Except.ok acc2) :
    ∃ r, runRules rules v = Except.ok r ∧
      List.lookup f acc2 =
        (if truthy r then some r else List.lookup f acc) := by
  rw [validateAllField_eq] at hok
  cases hr : runRules rules v with
  | error e =>
    rw [hr] at hok
    cases hok
  | ok r =>
    rw [hr] at hok
    simp only [Except.map, Except.ok.injEq] at hok
    refine ⟨r, rfl, ?_⟩
    cases htr : truthy r with
    | true =>
      simp only [htr, if_true] at hok ⊢
      rw [← hok]
      exact lookup_setKey_self acc f r
    | false =>
      simp only [htr, Bool.false_eq_true, if_false] at hok ⊢
      rw [← hok]

/-- The outer validateAll loop never touches the entry of a field that is
not a key of the registry it walks. -/
theorem validateAllGo_lookup_of_not_mem {α ε : Type}
    {vs : Validators α ε} {value : String → α} {acc res : Errors}
    {f : String} (hf : f ∉ vs.map Prod.fst)
    (h : validateAllGo vs value acc = Except.ok res) :
    List.lookup f res = List.lookup f acc := by
  induction vs generalizing acc with
  | nil =>
    simp only [validateAllGo, Except.ok.injEq] at h
    rw [h]
  | cons p rest ih =>
    cases p with
    | mk g rules =>
      simp only [List.map_cons, List.mem_cons, not_or] at hf
      simp only [validateAllGo] at h
      cases hgo : validateAllField rules (value g) acc g with
      | error e =>
        rw [hgo] at h
        cases h
      | ok acc2 =>
        rw [hgo] at h
        rw [ih hf.2 h]
        exact lookup_validateAllField_ne hf.1 hgo

/-- The outer validateAll loop over a split registry: it walks the first
part, and only when no rule of the first part throws does it continue
into the second part from the accumulator reached so far. -/
theorem validateAllGo_append {α ε : Type} (l1 l2 : Validators α ε)
    (value : String → α) (acc : Errors) :
    validateAllGo (l1 ++ l2) value acc =
      (match validateAllGo l1 value acc with
        | Except.ok acc2 => validateAllGo l2 value acc2
        | Except.error e => Except.error e) := by
  induction l1 generalizing acc with
  | nil => rfl
  | cons p rest ih =>
    cases p with
    | mk g rules =>
      rw [List.cons_append]
      simp only [validateAllGo]
      cases hgo : validateAllField rules (value g) acc g with
      | error e => rfl
      | ok acc2 => exact ih acc2

/-- After a successful validateAll loop over a registry with distinct
keys, the entry of a registered field is determined by running exactly
its own rules: the first truthy failure is recorded, and a fully passing
field keeps the entry it had in the starting accumulator. -/
theorem validateAllGo_lookup_of_mem {α ε : Type}
    {vs : Validators α ε} {value : String → α} {acc res : Errors}
    {f : String} {rules : List (Validator α ε)}
    (hnd : (vs.map Prod.fst).Nodup) (hmem : (f, rules) ∈ vs)
    (h : validateAllGo vs value acc = Except.ok res) :
    ∃ r, runRules rules (value f) = Except.ok r ∧
      List.lookup f res =
        (if truthy r then some r else List.lookup f acc) := by
  induction vs generalizing acc with
  | nil => cases hmem
  | cons p rest ih =>
    cases p with
    | mk g grules =>
      simp only [List.map_cons, List.nodup_cons] at hnd
      simp only [validateAllGo] at h
      cases hgo : validateAllField grules (value g) acc g with
      | error e =>
        rw [hgo] at h
        cases h
      | ok acc2 =>
        rw [hgo] at h
        rcases List.mem_cons.mp hmem with hhead | htail
        · injection hhead with h1 h2
          subst h1
          subst h2
          obtain ⟨r, hr, hlook⟩ := lookup_validateAllField_self hgo
          refine ⟨r, hr, ?_⟩
          rw [validateAllGo_lookup_of_not_mem hnd.1 h, hlook]
        · have hfmem : f ∈ rest.map Prod.fst :=
            List.mem_map_of_mem Prod.fst htail
          have hne : f ≠ g := fun hfg => hnd.1 (hfg ▸ hfmem)
          obtain ⟨r, hr, hlook⟩ := ih hnd.2 htail h
          refine ⟨r, hr, ?_⟩
          rw [hlook, lookup_validateAllField_ne hne hgo]

/-!
Concrete inputs used by the claim theorems below.
-/

/-- A rule that passes (returns false) on every value. -/
def ruleC1pass : Validator String Unit := fun _ => Except.ok none

/-- Registry with the single field email carrying one passing rule. -/
def vsC1 : Validators String Unit := [("email", [ruleC1pass])]

/-- Form value with email = a@b.com. -/
def valueC1 : String → String := fun _ => "a@b.com"

/-- Claim C1, as stated, is false on the code: with the field email
registered with one rule and that rule passing on the value a@b.com,
validateAll completes with the empty mapping, which has no entry at all
for email, instead of an entry equal to false. -/
theorem claimC1_counterexample :
    validateAll vsC1 valueC1 = Except.ok [] ∧
      List.lookup "email" (validateAllRun vsC1 valueC1 []) ≠ some none := by
  refine ⟨rfl, ?_⟩
  intro hcontra
  exact Option.noConfusion hcontra

/-- Claim C1 (amended): for every field present in a distinct-keyed
registry with rules, after validateAll completes without an exception,
the error mapping has an entry equal to the first truthy failing rule
message when some rule fails, and has no entry at all for that field when
every rule passes (validateAll, unlike validateField, never records an
explicit false). -/
theorem claimC1_amended {α ε : Type} {vs : Validators α ε}
    {value : String → α} {res : Errors} {f : String}
    {rules : List (Validator α ε)}
    (hnd : (vs.map Prod.fst).Nodup) (hmem : (f, rules) ∈ vs)
    (h : validateAll vs value = Except.ok res) :
    ∃ r, runRules rules (value f) = Except.ok r ∧
      List.lookup f res = (if truthy r then some r else none) := by
  obtain ⟨r, hr, hlook⟩ := validateAllGo_lookup_of_mem hnd hmem h
  exact ⟨r, hr, hlook⟩

/-- Witness for the amended claim C1 at the concrete input of its
scenario: the single email rule passes on a@b.com and the mapping
produced by validateAll has no entry for email. -/
theorem claimC1_amended_witness :
    (vsC1.map Prod.fst).Nodup ∧ ("email", [ruleC1pass]) ∈ vsC1 ∧
      validateAll vsC1 valueC1 = Except.ok [] ∧
      ∃ r, runRules [ruleC1pass] (valueC1 "email") = Except.ok r ∧
        List.lookup "email" ([] : Errors) = (if truthy r then some r else none) :=
  ⟨List.nodup_singleton _, List.Mem.head _, rfl,
    @claimC1_amended String Unit vsC1 valueC1 [] "email" [ruleC1pass]
      (List.nodup_singleton _) (List.Mem.head _) rfl⟩

/-- A rule failing with the message required on every value. -/
def ruleC2r1 : Validator String Unit := fun _ => Except.ok (some "required")

/-- A second rule that would also fail, with a different message. -/
def ruleC2r2 : Validator String Unit := fun _ => Except.ok (some "other")

/-- Registry with the single field email carrying the two failing rules. -/
def vsC2 : Validators String Unit := [("email", [ruleC2r1, ruleC2r2])]

/-- Form value with email = empty string. -/
def valueC2 : String → String := fun _ => ""

/-- Claim C2: for a field whose first rule fails with a truthy message on
the current value, validateField records exactly that message for the
field, and a successful validateAll records exactly that message as the
field entry, both regardless of every later rule in the list
(first-failure-wins, short-circuit). -/
theorem claimC2_first_failure_wins {α ε : Type} {vs : Validators α ε}
    {value : String → α} {errors res : Errors} {f : String}
    {r1 : Validator α ε} {rlater : List (Validator α ε)} {m : String}
    (hnd : (vs.map Prod.fst).Nodup)
    (hreg : List.lookup f vs = some (r1 :: rlater))
    (h1 : r1 (value f) = Except.ok (some m)) (hm : m ≠ "")
    (hok : validateAll vs value = Except.ok res) :
    validateField vs value errors f = Except.ok (setKey errors f (some m)) ∧
      List.lookup f res = some (some m) := by
  have htr : truthy (some m) = true := by simp [truthy, hm]
  have hrun : runRules (r1 :: rlater) (value f) = Except.ok (some m) := by
    simp only [runRules, h1, htr, if_true]
  constructor
  · simp only [validateField, hreg, hrun]
  · obtain ⟨r, hr, hlook⟩ :=
      validateAllGo_lookup_of_mem hnd (mem_of_lookup_eq_some hreg) hok
    rw [hrun] at hr
    injection hr with hr2
    subst hr2
    rw [hlook, if_pos htr]

/-- Witness for claim C2 at a concrete input: both email rules would
fail, the recorded message is the first one, and the second rule plays no
part in the result. -/
theorem claimC2_witness :
    (vsC2.map Prod.fst).Nodup ∧
      List.lookup "email" vsC2 = some [ruleC2r1, ruleC2r2] ∧
      ruleC2r1 (valueC2 "email") = Except.ok (some "required") ∧
      "required" ≠ "" ∧
      validateAll vsC2 valueC2 = Except.ok [("email", some "required")] ∧
      validateField vsC2 valueC2 [] "email" =
        Except.ok (setKey [] "email" (some "required")) ∧
      List.lookup "email" [("email", some "required")] =
        some (some "required") := by
  refine ⟨List.nodup_singleton _, rfl, rfl, by decide, rfl, ?_, ?_⟩
  · exact (@claimC2_first_failure_wins String Unit vsC2 valueC2 []
      [("email", some "required")] "email" ruleC2r1 [ruleC2r2] "required"
      (List.nodup_singleton _) rfl rfl (by decide) rfl).1
  · exact (@claimC2_first_failure_wins String Unit vsC2 valueC2 []
      [("email", some "required")] "email" ruleC2r1 [ruleC2r2] "required"
      (List.nodup_singleton _) rfl rfl (by decide) rfl).2

/-- A rule that throws: its promise rejects with the message boom. -/
def ruleC3boom : Validator Nat String := fun _ => Except.error "boom"

/-- A rule failing normally with the message bad, used to give the
fields before the throwing one some partial progress. -/
def ruleC3fail : Validator Nat String := fun _ => Except.ok (some "bad")

/-- Claim C3: when a rule of any registered field throws during
validateAll — after the fields before it completed normally, having
accumulated any partial mapping — the exception is not caught:
validateAll propagates it whatever later fields are registered (they are
never run), the partial mapping is discarded, and the error state
observed after the call is exactly the state from before it. -/
theorem claimC3_uncaught_throw {α ε : Type} {pre rest : Validators α ε}
    {f : String} {rules : List (Validator α ε)} {value : String → α}
    {acc st : Errors} {ex : ε}
    (hpre : validateAllGo pre value [] = Except.ok acc)
    (hthrow : validateAllField rules (value f) acc f = Except.error ex) :
    validateAll (pre ++ (f, rules) :: rest) value = Except.error ex ∧
      validateAllRun (pre ++ (f, rules) :: rest) value st = st := by
  have hall : validateAll (pre ++ (f, rules) :: rest) value =
      Except.error ex := by
    show validateAllGo (pre ++ (f, rules) :: rest) value [] = Except.error ex
    rw [validateAllGo_append, hpre]
    simp only [validateAllGo, hthrow]
  exact ⟨hall, by simp only [validateAllRun, hall]⟩

/-- Witness for claim C3 at a concrete input: the field name fails
normally and is recorded in the partial mapping, the email rule then
throws, the later field age is never reached, the partial entry for name
is discarded, and the previous error state survives untouched. -/
theorem claimC3_witness :
    validateAllGo [("name", [ruleC3fail])] (fun _ => 0) [] =
        Except.ok [("name", some "bad")] ∧
      validateAllField [ruleC3boom] 0 [("name", some "bad")] "email" =
        Except.error "boom" ∧
      validateAll
        [("name", [ruleC3fail]), ("email", [ruleC3boom]),
          ("age", [ruleC3boom])] (fun _ => 0) = Except.error "boom" ∧
      validateAllRun
        [("name", [ruleC3fail]), ("email", [ruleC3boom]),
          ("age", [ruleC3boom])] (fun _ => 0) [("stale", some "old")] =
        [("stale", some "old")] := by
  refine ⟨rfl, rfl, ?_, ?_⟩
  · exact (@claimC3_uncaught_throw Nat String [("name", [ruleC3fail])]
      [("age", [ruleC3boom])] "email" [ruleC3boom] (fun _ => 0)
      [("name", some "bad")] [("stale", some "old")] "boom" rfl rfl).1
  · exact (@claimC3_uncaught_throw Nat String [("name", [ruleC3fail])]
      [("age", [ruleC3boom])] "email" [ruleC3boom] (fun _ => 0)
      [("name", some "bad")] [("stale", some "old")] "boom" rfl rfl).2

/-- A rule failing with the message required on every value. -/
def ruleC4fail : Validator String Unit := fun _ => Except.ok (some "required")

/-- Registry with the single field email carrying one failing rule. -/
def vsC4 : Validators String Unit := [("email", [ruleC4fail])]

/-- Claim C4: validateAll computes a full replacement mapping: on
success the previous error state is discarded entirely and replaced by
the computed mapping, and the result has no entry for any field outside
the registry keys, so stale entries for unregistered fields are gone. -/
theorem claimC4_full_replacement {α ε : Type} {vs : Validators α ε}
    {value : String → α} {st res : Errors} {k : String}
    (hok : validateAll vs value = Except.ok res)
    (hk : k ∉ vs.map Prod.fst) :
    validateAllRun vs value st = res ∧ List.lookup k res = none := by
  refine ⟨by simp only [validateAllRun, hok], ?_⟩
  have h := validateAllGo_lookup_of_not_mem hk hok
  simpa using h

/-- Witness for claim C4 at a concrete input: a stale entry for the
unregistered field old is replaced wholesale and the field age, absent
from the registry, has no entry in the result. -/
theorem claimC4_witness :
    validateAll vsC4 (fun _ => "") = Except.ok [("email", some "required")] ∧
      "age" ∉ vsC4.map Prod.fst ∧
      validateAllRun vsC4 (fun _ => "") [("old", some "x")] =
        [("email", some "required")] ∧
      List.lookup "age" [("email", some "required")] = none := by
  refine ⟨rfl, by decide, ?_, ?_⟩
  · exact (@claimC4_full_replacement String Unit vsC4 (fun _ => "")
      [("old", some "x")] [("email", some "required")] "age"
      rfl (by decide)).1
  · exact (@claimC4_full_replacement String Unit vsC4 (fun _ => "")
      [("old", some "x")] [("email", some "required")] "age"
      rfl (by decide)).2

/-- A rule that passes (returns false) on every value. -/
def ruleC5pass : Validator String Unit := fun _ => Except.ok none

/-- Registry with a passing rule on email and an empty rule list on
name. -/
def vsC5 : Validators String Unit := [("email", [ruleC5pass]), ("name", [])]

/-- Claim C5: a field with no registered rules, whether absent from the
registry altogether or registered with an empty rule list, gets no entry
in the mapping produced by a successful validateAll. -/
theorem claimC5_no_rules_no_entry {α ε : Type} {vs : Validators α ε}
    {value : String → α} {res : Errors} {f : String}
    (hnd : (vs.map Prod.fst).Nodup)
    (hok : validateAll vs value = Except.ok res)
    (hf : f ∉ vs.map Prod.fst ∨ (f, ([] : List (Validator α ε))) ∈ vs) :
    List.lookup f res = none := by
  rcases hf with hf | hf
  · have h := validateAllGo_lookup_of_not_mem hf hok
    simpa using h
  · obtain ⟨r, hr, hlook⟩ := validateAllGo_lookup_of_mem hnd hf hok
    have hrnone : r = none := by
      simp only [runRules] at hr
      injection hr with h2
      exact h2.symm
    subst hrnone
    simpa [truthy] using hlook

/-- Witness for claim C5 at a concrete input: email passes and name has
an empty rule list, so the resulting mapping is empty and name has no
entry. -/
theorem claimC5_witness :
    (vsC5.map Prod.fst).Nodup ∧
      validateAll vsC5 (fun _ => "x") = Except.ok [] ∧
      ("name", ([] : List (Validator String Unit))) ∈ vsC5 ∧
      List.lookup "name" ([] : Errors) = none := by
  refine ⟨by decide, rfl, ?_, ?_⟩
  · exact List.Mem.tail _ (List.Mem.head _)
  · exact @claimC5_no_rules_no_entry String Unit vsC5 (fun _ => "x") []
      "name" (by decide) rfl (Or.inr (List.Mem.tail _ (List.Mem.head _)))

/-- Claim C6: clearField sets exactly the given field entry of the error
state to false and leaves the entry of every other field unchanged. -/
theorem claimC6_clearField {errors : Errors} {f g : String} (h : g ≠ f) :
    List.lookup f (clearField errors f) = some none ∧
      List.lookup g (clearField errors f) = List.lookup g errors :=
  ⟨lookup_setKey_self errors f none, lookup_setKey_ne errors none h⟩

/-- Witness for claim C6 at a concrete input: clearing the field a sets
its entry to false and keeps the entry of b intact. -/
theorem claimC6_witness :
    ("b" : String) ≠ "a" ∧
      List.lookup "a" (clearField [("a", some "x"), ("b", some "y")] "a") =
        some none ∧
      List.lookup "b" (clearField [("a", some "x"), ("b", some "y")] "a") =
        List.lookup "b" [("a", some "x"), ("b", some "y")] := by
  refine ⟨by decide, ?_, ?_⟩
  · exact (@claimC6_clearField [("a", some "x"), ("b", some "y")] "a" "b"
      (by decide)).1
  · exact (@claimC6_clearField [("a", some "x"), ("b", some "y")] "a" "b"
      (by decide)).2

/-- Claim C7: after clearAll every field lookup in the error state yields
no entry, whatever errors were recorded before. -/
theorem claimC7_clearAll (errors : Errors) (f : String) :
    List.lookup f (clearAll errors) = none := rfl

/-- Claim C8: calling addValidator twice for the same field leaves the
registry mapping the field to exactly the second rule list; the first
list is discarded, not concatenated. -/
theorem claimC8_addValidator_replaces {α ε : Type} (vs : Validators α ε)
    (f : String) (rules1 rules2 : List (Validator α ε)) :
    List.lookup f (addValidator (addValidator vs f rules1) f rules2) =
      some rules2 :=
  lookup_setKey_self _ f rules2

/-- Claim C9: with the form value carrying email = empty string and the
single registered email rule returning required for the empty string,
validateAll completes and the resulting error mapping is exactly
email = required. -/
theorem claimC9_scenario :
    validateAll
        [("email",
          [fun v => (Except.ok (if v = "" then some "required" else none) :
            Except Unit ErrVal)])]
        (fun _ => "") =
      Except.ok [("email", some "required")] := rfl

/-- Claim C10: validateField always writes an entry for its field: when
the field has no registered rules at all, or every registered rule
returns false, the written entry is an explicit false — unlike
validateAll, which omits the entry in those cases. -/
theorem claimC10_validateField_writes {α ε : Type} {vs : Validators α ε}
    {value : String → α} {errors : Errors} {f : String}
    (h : List.lookup f vs = none ∨
      ∃ rules, List.lookup f vs = some rules ∧
        runRules rules (value f) = Except.ok none) :
    validateField vs value errors f = Except.ok (setKey errors f none) ∧
      List.lookup f (setKey errors f none) = some none := by
  refine ⟨?_, lookup_setKey_self errors f none⟩
  rcases h with h | ⟨rules, hreg, hrun⟩
  · simp only [validateField, h]
  · simp only [validateField, hreg, hrun]

/-- Witness for claim C10 at a concrete input: the field email has no
registered rules, yet validateField writes an explicit false entry for
it. -/
theorem claimC10_witness :
    List.lookup "email" ([] : Validators String Unit) = none ∧
      validateField ([] : Validators String Unit) (fun _ => "") [] "email" =
        Except.ok (setKey [] "email" none) ∧
      List.lookup "email" (setKey ([] : Errors) "email" none) = some none := by
  refine ⟨rfl, ?_, ?_⟩
  · exact (@claimC10_validateField_writes String Unit [] (fun _ => "") []
      "email" (Or.inl rfl)).1
  · exact (@claimC10_validateField_writes String Unit [] (fun _ => "") []
      "email" (Or.inl rfl)).2

end CForm
